import Mathlib

/-!
Verification of the GitHub organisation scraper batch job (`app.py`).

The development shallowly embeds the pipeline of `app.py`:
* `make_request_with_retry` — bounded retry with exponential backoff,
  modelled over a deterministic transport oracle (attempt index ↦ outcome);
* the producer loop `GitHubDataProducer.fetch_data`, modelled over a list of
  page responses, producing the sequence of queue items (batches and the
  terminating sentinel `none`);
* the consumer `GitHubDataConsumer` (`fetch_codeowners`, `parse_codeowners`,
  `process_repo`, `process_data`), with network fetches modelled by oracles
  and Python exceptions modelled by `Option`-valued results; the mutable
  per-language statistics dictionaries become explicitly threaded state;
* the aggregation in `get_repository_technologies` (visibility counts,
  activity windows, per-language averages).

Machine reals of the source (Python floats) are modelled by exact rationals;
ISO timestamp strings are modelled by integer epoch seconds, with
`timedelta.days` becoming floor division by 86400.
-/

/-! ## String helpers (Python `in`, `.lower()`, `.replace`) -/

/-- Python `needle in hay` on strings, on character lists. -/
def hasSubList (needle : List Char) : List Char → Bool
  | [] => needle.isEmpty
  | c :: rest => needle.isPrefixOf (c :: rest) || hasSubList needle rest

/-- Python substring test `needle in hay`. -/
def strIn (needle hay : String) : Bool :=
  hasSubList needle.toList hay.toList

/-- Python `s.lower()` (ASCII case folding, via `Char.toLower`), defined on
the character list so that it evaluates by kernel reduction. -/
def pyLower (s : String) : String :=
  String.mk (s.toList.map Char.toLower)

/-- Python `content.replace("\n", " ")` (single-character replacement). -/
def replaceNewlines (c : String) : String :=
  String.mk (c.toList.map (fun ch => if ch = '\n' then ' ' else ch))

/-! ## Keyword configuration (the `KEYWORDS_FILE` constant of `app.py`) -/

def documentation_list : List String :=
  ["Confluence", "MKDocs", "Sphinx", "ReadTheDocs"]

def cloud_services_list : List String :=
  ["AWS", "Azure", "GCP"]

def frameworks_list : List String :=
  ["React", "Angular", "Vue", "Django", "Streamlit", "Flask", "Spring",
   "Hibernate", "Express", "Next.js", "Play", "Akka", "Lagom"]

/-- `find_keywords_in_file` of `app.py`: case-insensitive keyword scan of a
file (null file yields `[]`); the containment guard compares the lowered
keyword against the already collected (original-case) keywords, exactly as
the source does. -/
def find_keywords_in_file (file : Option String) (keywords_list : List String) :
    List String :=
  match file with
  | none => []
  | some f =>
      keywords_list.foldl
        (fun acc kw =>
          if strIn (pyLower kw) (pyLower f) && !(acc.contains (pyLower kw))
          then acc ++ [kw] else acc) []

/-! ## RetryExecutor: `make_request_with_retry`

The transport is an oracle from attempt index (0-based) to outcome. A
successful response is returned immediately; a non-success status falls
through to the backoff sleep; a transport exception on the final attempt is
re-raised, otherwise it also falls through to the backoff sleep. After the
loop, a terminal error is raised. The trace records the returned result,
the sequence of backoff delays (seconds), and the number of attempts made. -/

inductive ReqOutcome
  | transportError
  | badStatus (code : Nat)
  | success (resp : Nat)
deriving DecidableEq

inductive ReqResult
  | response (resp : Nat)
  | raisedTransport
  | raisedExhausted
deriving DecidableEq

structure RetryTrace where
  result : ReqResult
  delays : List Nat
  attempts : Nat
deriving DecidableEq

/-- One execution of the `for attempt in range(MAX_RETRIES)` loop body of
`make_request_with_retry`, starting at `attempt` with `remaining` iterations
left. -/
def retryFrom (outcomes : Nat → ReqOutcome) (attempt : Nat) : Nat → RetryTrace
  | 0 => ⟨ReqResult.raisedExhausted, [], 0⟩
  | remaining + 1 =>
      match outcomes attempt with
      | ReqOutcome.success r => ⟨ReqResult.response r, [], 1⟩
      | ReqOutcome.badStatus _ =>
          let t := retryFrom outcomes (attempt + 1) remaining
          ⟨t.result, 2 ^ attempt :: t.delays, t.attempts + 1⟩
      | ReqOutcome.transportError =>
          if remaining = 0 then ⟨ReqResult.raisedTransport, [], 1⟩
          else
            let t := retryFrom outcomes (attempt + 1) remaining
            ⟨t.result, 2 ^ attempt :: t.delays, t.attempts + 1⟩

/-- `make_request_with_retry(ql, query, variables)` with `MAX_RETRIES`
attempts, over a transport oracle. -/
def make_request_with_retry (outcomes : Nat → ReqOutcome) (maxRetries : Nat) :
    RetryTrace :=
  retryFrom outcomes 0 maxRetries

/-! ## Repository node data model

The shape of one node of the GraphQL `repositories` query of `fetch_data`.
Language sizes are integers, commit timestamps are epoch seconds. The
`object` field of a tree entry distinguishes a JSON `null`, a Blob (with a
possibly-null `text` key) and a Tree (with a possibly-null `entries` key):
Python subscripting `entry["object"]["text"]` raises unless the object is a
Blob, and `entry["object"]["entries"]` raises unless it is a Tree. -/

structure OrgTeam where
  name : String
  slug : String
deriving DecidableEq

structure LangEdge where
  size : Int
  name : String
deriving DecidableEq

structure LanguagesBlock where
  edges : List LangEdge
  totalSize : Int
deriving DecidableEq

structure SubEntry where
  name : String
deriving DecidableEq

inductive EntryObject
  | null
  | blob (text : Option String)
  | tree (entries : Option (List SubEntry))
deriving DecidableEq

structure TreeEntry where
  name : String
  object : EntryObject
deriving DecidableEq

structure CommitTarget where
  committedDate : Option Int
deriving DecidableEq

structure BranchRef where
  name : Option String
  target : Option CommitTarget
deriving DecidableEq

structure RootObject where
  entries : Option (List TreeEntry)
deriving DecidableEq

structure RepoNode where
  name : String
  url : String
  visibility : String
  isArchived : Bool
  defaultBranchRef : Option BranchRef
  languages : LanguagesBlock
  object : Option RootObject
deriving DecidableEq

/-! ## Producer: `GitHubDataProducer.fetch_data`

One page request (already wrapped in `make_request_with_retry`) can:
raise before the batch is enqueued (transport exhaustion, JSON failure, or
a missing key while extracting `nodes`/`pageInfo`); return a body with a
logical `errors` array; return a page whose `pageInfo` lacks the
`hasNextPage` key (the batch is enqueued first, then the subscript raises);
or return a well-formed page. `fetch_data` returns the exact sequence of
items enqueued on the data queue: the data batches, then the sentinel. -/

inductive PageResp
  | raised
  | errs
  | pageNoPageInfo (repos : List RepoNode)
  | page (repos : List RepoNode) (hasNextPage : Bool)

/-- The list of items `fetch_data` puts on the data queue, given the
successive page responses (`self.has_next_page` starts `True`; running out
of responses is modelled as a raising request). -/
def fetch_data : List PageResp → List (Option (List RepoNode))
  | [] => [none]
  | PageResp.raised :: _ => [none]
  | PageResp.errs :: _ => [none]
  | PageResp.pageNoPageInfo rs :: _ => [some rs, none]
  | PageResp.page rs hasNext :: rest =>
      if hasNext then some rs :: fetch_data rest
      else [some rs, none]

/-! ## Ownership file resolution: `fetch_codeowners`

A per-path fetch either raises (caught and logged inside the loop), returns
a body with an `errors` array, returns a null `file`, or returns a file
with a possibly-null `text`. The function returns the first truthy content
together with the list of paths actually probed, in order. -/

inductive FetchResult
  | raised
  | errs
  | fileNull
  | file (text : Option String)
deriving DecidableEq

def codeowners_paths : List String :=
  ["CODEOWNERS", ".github/CODEOWNERS", "docs/CODEOWNERS", ".gitlab/CODEOWNERS"]

/-- The `for path in paths` loop of `fetch_codeowners`: a path is a hit when
its fetch succeeds, has no `errors`, has a non-null `file` and truthy
(non-null, non-empty) `text`. Returns the content found (if any) and the
probed paths. -/
def probeCodeowners (fo : String → FetchResult) : List String → Option String × List String
  | [] => (none, [])
  | p :: rest =>
      match fo p with
      | FetchResult.file (some t) =>
          if t = ("") then
            let r := probeCodeowners fo rest
            (r.1, p :: r.2)
          else (some t, [p])
      | _ =>
          let r := probeCodeowners fo rest
          (r.1, p :: r.2)

/-- `fetch_codeowners(repo_name, default_branch)`; the network is an oracle
from (branch, path) to a fetch result, the repository name being fixed by
the caller. -/
def fetch_codeowners (fo : String → String → FetchResult) (default_branch : String) :
    Option String × List String :=
  probeCodeowners (fo default_branch) codeowners_paths

/-- The truthy text of one path fetch, as tested by `fetch_codeowners`. -/
def goodContent : FetchResult → Option String
  | FetchResult.file (some t) => if t = ("") then none else some t
  | _ => none

/-! ## Ownership parsing: `parse_codeowners`

Empty or null content yields `[]`. Otherwise newlines are replaced by
spaces and, for each slug of `org_teams` in order, the literal needle
`"@{org}/{slug}"` — NOT lowercased — is searched in the lowercased content;
on a hit the inner loop appends the name of every team bearing that slug
(the source guard `team not in matched_teams` compares a team record
against a list of name strings and therefore never fires). -/

/-- One iteration of the `for team_slug in team_slugs` loop, `lhay` being
the lowercased (newline-stripped) content. -/
def parseStep (org : String) (org_teams : List OrgTeam) (lhay : String)
    (acc : List String) (slug : String) : List String :=
  if strIn (("@") ++ org ++ ("/") ++ slug) lhay
  then acc ++ ((org_teams.filter (fun t => t.slug = slug)).map (fun t => t.name))
  else acc

def parse_codeowners (org : String) (org_teams : List OrgTeam)
    (content : Option String) : List String :=
  match content with
  | none => []
  | some c =>
      if c = ("") then []
      else
        let c2 := replaceNewlines c
        (org_teams.map (fun t => t.slug)).foldl (parseStep org org_teams (pyLower c2)) []

/-! ## Consumer state: the per-language statistics dictionaries -/

structure LangStat where
  repo_count : Int
  average_percentage : ℚ
  total_size : Int
deriving DecidableEq

def StatsMap : Type := String → Option LangStat

structure ConsumerStats where
  language_stats : StatsMap
  archived_language_stats : StatsMap

def emptyConsumerStats : ConsumerStats :=
  ⟨fun _ => none, fun _ => none⟩

/-- The per-edge update of the chosen statistics dictionary in
`process_repo`: initialise the entry to zeroes when absent, then add one to
`repo_count`, the percentage to `average_percentage` (a running cumulative
sum until aggregation) and the edge size to `total_size`. -/
def updateStat (m : StatsMap) (lang : String) (pct : ℚ) (sz : Int) : StatsMap :=
  fun n =>
    if n = lang then
      match m lang with
      | none => some ⟨1, pct, sz⟩
      | some s => some ⟨s.repo_count + 1, s.average_percentage + pct, s.total_size + sz⟩
    else m n

/-- `stats_dict = self.archived_language_stats if is_archived else
self.language_stats`, followed by the update. -/
def applyEdgeStats (isArch : Bool) (st : ConsumerStats) (lang : String)
    (pct : ℚ) (sz : Int) : ConsumerStats :=
  if isArch then
    { st with archived_language_stats := updateStat st.archived_language_stats lang pct sz }
  else
    { st with language_stats := updateStat st.language_stats lang pct sz }

structure LangInfo where
  name : String
  size : Int
  percentage : ℚ
deriving DecidableEq

structure EdgesResult where
  stats : ConsumerStats
  IAC : List String
  languages : List LangInfo
  ok : Bool

/-- The `for edge in repo["languages"]["edges"]` loop of `process_repo`:
IaC tags for `HCL`/`Dockerfile`, then the percentage
`(edge["size"] / total_size) * 100` — a `ZeroDivisionError` when
`total_size` is zero ends the loop with `ok := false`, keeping the state
mutations already made — then the statistics update and the record entry. -/
def processEdges (isArch : Bool) (totalSize : Int) :
    List LangEdge → ConsumerStats → List String → List LangInfo → EdgesResult
  | [], st, iac, langs => ⟨st, iac, langs, true⟩
  | e :: rest, st, iac, langs =>
      let iac2 := if e.name = ("HCL") then iac ++ ["Terraform"] else iac
      let iac3 := if e.name = ("Dockerfile") then iac2 ++ ["Docker"] else iac2
      if totalSize = 0 then ⟨st, iac3, langs, false⟩
      else
        let pct : ℚ := ((e.size : ℚ) / (totalSize : ℚ)) * 100
        processEdges isArch totalSize rest (applyEdgeStats isArch st e.name pct e.size)
          iac3 (langs ++ [⟨e.name, e.size, pct⟩])

/-! ## Root tree scan of `process_repo` -/

structure ScanState where
  readme_content : Option String
  pyproject_content : Option String
  package_json_content : Option String
  ci_cd : List String
deriving DecidableEq

def initScan : ScanState := ⟨none, none, none, []⟩

/-- `entry["object"]["text"]`: defined only on a Blob (otherwise Python
raises); the text itself may still be null. -/
def blobText : EntryObject → Option (Option String)
  | EntryObject.blob t => some t
  | _ => none

/-- `entry["object"]["entries"]`: defined only on a Tree (otherwise Python
raises); the list itself may still be null. -/
def objEntries : EntryObject → Option (Option (List SubEntry))
  | EntryObject.tree es => some es
  | _ => none

/-- One iteration of the `for entry in repo["object"]["entries"]` loop:
the `if/elif` chain on the entry name; `none` models an uncaught exception
inside the loop (subscripting a non-Blob for text, or a non-Tree for
entries). The `.github` branch appends one `GitHub Actions` tag when a
`workflows` sub-entry exists; the `ci` branch appends one `Concourse` tag
when a sub-entry name contains `pipeline.yml`. -/
def scanEntry (acc : ScanState) (e : TreeEntry) : Option ScanState :=
  if pyLower e.name = ("readme.md") then
    (blobText e.object).map (fun t => { acc with readme_content := t })
  else if pyLower e.name = ("pyproject.toml") then
    (blobText e.object).map (fun t => { acc with pyproject_content := t })
  else if pyLower e.name = ("package.json") then
    (blobText e.object).map (fun t => { acc with package_json_content := t })
  else if e.name = (".github") then
    match objEntries e.object with
    | none => none
    | some none => some acc
    | some (some subs) =>
        if subs.any (fun s => s.name = ("workflows"))
        then some { acc with ci_cd := acc.ci_cd ++ ["GitHub Actions"] }
        else some acc
  else if e.name = ("ci") then
    match objEntries e.object with
    | none => none
    | some none => some acc
    | some (some subs) =>
        if subs.any (fun s => strIn ("pipeline.yml") s.name)
        then some { acc with ci_cd := acc.ci_cd ++ ["Concourse"] }
        else some acc
  else some acc

def scanEntries : List TreeEntry → ScanState → Option ScanState
  | [], acc => some acc
  | e :: rest, acc =>
      match scanEntry acc e with
      | none => none
      | some acc2 => scanEntries rest acc2

/-- The README documentation/cloud scan of `process_repo`: the source zips
the four-element documentation list with the three-element cloud list, so
only the first three documentation keywords are ever searched. -/
def docsCloudScan (readme : Option String) : List String × List String :=
  match readme with
  | none => ([], [])
  | some txt =>
      (documentation_list.zip cloud_services_list).foldl
        (fun dc p =>
          let d2 := if strIn (pyLower p.1) (pyLower txt) then dc.1 ++ [p.1] else dc.1
          let c2 := if strIn (pyLower p.2) (pyLower txt) then dc.2 ++ [p.2] else dc.2
          (d2, c2)) ([], [])

/-! ## `process_repo` and `process_data` -/

structure Technologies where
  languages : List LangInfo
  IAC : List String
  docs : List String
  cloud : List String
  frameworks : List String
  ci_cd : List String
deriving DecidableEq

structure RepoInfo where
  name : String
  url : String
  visibility : String
  is_archived : Bool
  last_commit : Option Int
  users : List String
  technologies : Technologies
deriving DecidableEq

/-- `GitHubDataConsumer.process_repo`. The ownership-file network is an
oracle `fo : repo name → branch → path → FetchResult`. Returns the updated
statistics state and the repository record, `none` when the `try` block
raised (the handler logs and returns `None`; statistics mutations made
before the raise persist). `frameworks` is `list(set(...))` in the source,
whose hash order is modelled as first-occurrence deduplication. -/
def process_repo (org : String) (org_teams : List OrgTeam)
    (fo : String → String → String → FetchResult)
    (repo : RepoNode) (st : ConsumerStats) : ConsumerStats × Option RepoInfo :=
  let is_archived := repo.isArchived
  let default_branch :=
    match repo.defaultBranchRef with
    | some b => b.name.getD ("main")
    | none => ("main")
  let codeowners_content := (fetch_codeowners (fo repo.name) default_branch).1
  let teams := parse_codeowners org org_teams codeowners_content
  let last_commit_date :=
    match repo.defaultBranchRef with
    | some b =>
        match b.target with
        | some t => t.committedDate
        | none => none
    | none => none
  let er :=
    if repo.languages.edges = [] then EdgesResult.mk st [] [] true
    else processEdges is_archived repo.languages.totalSize repo.languages.edges st [] []
  if er.ok = false then (er.stats, none)
  else
    let rootEntries :=
      match repo.object with
      | some o =>
          match o.entries with
          | some es => es
          | none => []
      | none => []
    match scanEntries rootEntries initScan with
    | none => (er.stats, none)
    | some acc =>
        let frameworks :=
          (find_keywords_in_file acc.pyproject_content frameworks_list ++
           find_keywords_in_file acc.package_json_content frameworks_list).eraseDups
        let dc := docsCloudScan acc.readme_content
        (er.stats,
          some {
            name := repo.name
            url := repo.url
            visibility := repo.visibility
            is_archived := is_archived
            last_commit := last_commit_date
            users := teams
            technologies := {
              languages := er.languages
              IAC := er.IAC
              docs := dc.1
              cloud := dc.2
              frameworks := frameworks
              ci_cd := acc.ci_cd } })

/-- The inner `for repo in repos_batch` loop of `process_data`: thread the
statistics state, keep the records of successful items in order. -/
def processBatch (org : String) (org_teams : List OrgTeam)
    (fo : String → String → String → FetchResult) :
    List RepoNode → ConsumerStats → ConsumerStats × List RepoInfo
  | [], st => (st, [])
  | r :: rest, st =>
      let pr := process_repo org org_teams fo r st
      let pb := processBatch org org_teams fo rest pr.1
      match pr.2 with
      | some i => (pb.1, i :: pb.2)
      | none => (pb.1, pb.2)

/-- `GitHubDataConsumer.process_data` over the already-dequeued data
batches, producing the processed batches pushed on the result queue. -/
def process_data (org : String) (org_teams : List OrgTeam)
    (fo : String → String → String → FetchResult) :
    List (List RepoNode) → ConsumerStats → ConsumerStats × List (List RepoInfo)
  | [], st => (st, [])
  | b :: bs, st =>
      let pb := processBatch org org_teams fo b st
      let rest := process_data org org_teams fo bs pb.1
      (rest.1, pb.2 :: rest.2)

/-! ## Aggregator: the statistics of `get_repository_technologies` -/

structure StatsBlock where
  total : Int
  priv : Int
  pub : Int
  internal : Int
  active_last_month : Int
  active_last_3months : Int
  active_last_6months : Int
deriving DecidableEq

structure LangAverage where
  repo_count : Int
  average_percentage : ℚ
  total_size : Int
deriving DecidableEq

/-- `(datetime.now(utc) - fromisoformat(last_commit)).days`: floor division
of the elapsed seconds by 86400, timestamps being epoch seconds. -/
def daysSince (now ts : Int) : Int := (now - ts).fdiv 86400

/-- One activity-window counter: repositories with a truthy `last_commit`,
the given archived flag, and elapsed days at most `limit`. -/
def activeCount (now : Int) (arch : Bool) (limit : Int) (repos : List RepoInfo) : Int :=
  (repos.countP (fun r =>
    match r.last_commit with
    | some ts => r.is_archived == arch && decide (daysSince now ts ≤ limit)
    | none => false) : Nat)

/-- The per-language averages: `repo_count` and `total_size` are copied,
`average_percentage` is the cumulative percentage divided by `repo_count`
(the source additionally rounds the quotient to 3 decimal places, which no
statement below depends on and is modelled exactly). -/
def languageAverages (m : StatsMap) : String → Option LangAverage :=
  fun lang =>
    (m lang).map (fun s =>
      ⟨s.repo_count, s.average_percentage / (s.repo_count : ℚ), s.total_size⟩)

structure ScraperOutput where
  repositories : List RepoInfo
  stats_unarchived : StatsBlock
  stats_archived : StatsBlock
  language_statistics_unarchived : String → Option LangAverage
  language_statistics_archived : String → Option LangAverage

/-- The `output` object built at the end of `get_repository_technologies`
(the `metadata.last_updated` date string is not modelled). -/
def computeOutput (now : Int) (all_repos : List RepoInfo) (cs : ConsumerStats) :
    ScraperOutput :=
  let total_repos : Int := (all_repos.length : Nat)
  let private_repos : Int := (all_repos.countP (fun r => r.visibility == ("PRIVATE")) : Nat)
  let public_repos : Int := (all_repos.countP (fun r => r.visibility == ("PUBLIC")) : Nat)
  let internal_repos : Int := (all_repos.countP (fun r => r.visibility == ("INTERNAL")) : Nat)
  let archived_repos : Int := (all_repos.countP (fun r => r.is_archived) : Nat)
  let archived_private : Int :=
    (all_repos.countP (fun r => r.is_archived && r.visibility == ("PRIVATE")) : Nat)
  let archived_public : Int :=
    (all_repos.countP (fun r => r.is_archived && r.visibility == ("PUBLIC")) : Nat)
  let archived_internal : Int :=
    (all_repos.countP (fun r => r.is_archived && r.visibility == ("INTERNAL")) : Nat)
  { repositories := all_repos
    stats_unarchived := {
      total := total_repos - archived_repos
      priv := private_repos - archived_private
      pub := public_repos - archived_public
      internal := internal_repos - archived_internal
      active_last_month := activeCount now false 30 all_repos
      active_last_3months := activeCount now false 90 all_repos
      active_last_6months := activeCount now false 180 all_repos }
    stats_archived := {
      total := archived_repos
      priv := archived_private
      pub := archived_public
      internal := archived_internal
      active_last_month := activeCount now true 30 all_repos
      active_last_3months := activeCount now true 90 all_repos
      active_last_6months := activeCount now true 180 all_repos }
    language_statistics_unarchived := languageAverages cs.language_stats
    language_statistics_archived := languageAverages cs.archived_language_stats }

/-- A full run of the pipeline on already-fetched data batches: the consumer
drains the batches (statistics start empty), the orchestrator concatenates
the processed batches and aggregates. -/
def runPipeline (now : Int) (org : String) (org_teams : List OrgTeam)
    (fo : String → String → String → FetchResult)
    (batches : List (List RepoNode)) : ScraperOutput :=
  let pd := process_data org org_teams fo batches emptyConsumerStats
  computeOutput now pd.2.flatten pd.1

/-! ## Helper projections used by the statements -/

/-- The per-repository record computed by `process_repo`, which does not
depend on the accumulated statistics state (proved below). -/
def recordOf (org : String) (org_teams : List OrgTeam)
    (fo : String → String → String → FetchResult) (r : RepoNode) : Option RepoInfo :=
  (process_repo org org_teams fo r emptyConsumerStats).2

/-- The partition of the statistics state matching an archived flag. -/
def partStats (b : Bool) (cs : ConsumerStats) : StatsMap :=
  if b then cs.archived_language_stats else cs.language_stats

def rcOf : Option LangStat → Int
  | none => 0
  | some s => s.repo_count

def rcOfA : Option LangAverage → Int
  | none => 0
  | some a => a.repo_count

/-- How many emitted records have the given archived flag and contain
language `L`. -/
def countLangRecords (b : Bool) (L : String) (recs : List RepoInfo) : Int :=
  ((recs.filter (fun i =>
      i.is_archived == b && (i.technologies.languages.map (fun l => l.name)).contains L)).length : Nat)

/-! ## Concrete fixtures used by counterexamples and witnesses -/

/-- An ownership-file oracle whose every fetch returns a null `file`. -/
def noFetch : String → String → String → FetchResult := fun _ _ _ => FetchResult.fileNull

/-- A repository whose root tree has a directory (Tree entry) named
`readme.md`: `entry["object"]["text"]` raises after the language
statistics were already updated. -/
def badRepo : RepoNode :=
  { name := "r1", url := "u", visibility := "PUBLIC", isArchived := false,
    defaultBranchRef := none,
    languages := ⟨[⟨7, "Python"⟩], 7⟩,
    object := some ⟨some [⟨"readme.md", EntryObject.tree none⟩]⟩ }

/-- A well-formed repository: two languages, consistent total size. -/
def goodRepo : RepoNode :=
  { name := "svc-a", url := "u", visibility := "PUBLIC", isArchived := false,
    defaultBranchRef := none,
    languages := ⟨[⟨800, "Go"⟩, ⟨200, "Text"⟩], 1000⟩,
    object := none }

/-- The record `process_repo` emits for `goodRepo` (percentages kept in the
unnormalised form the code computes). -/
def infoGood : RepoInfo :=
  { name := "svc-a", url := "u", visibility := "PUBLIC", is_archived := false,
    last_commit := none, users := [],
    technologies := {
      languages := [⟨"Go", 800, (((800 : Int) : ℚ) / ((1000 : Int) : ℚ)) * 100⟩,
                    ⟨"Text", 200, (((200 : Int) : ℚ) / ((1000 : Int) : ℚ)) * 100⟩],
      IAC := [], docs := [], cloud := [], frameworks := [].eraseDups, ci_cd := [] } }

/-- A repository whose language edge sizes sum to 1 while `totalSize` is 2
(the GraphQL `languages(first: 10)` connection truncates edges but reports
the full `totalSize`, so such nodes occur for repositories with more
languages than the page size). -/
def halfRepo : RepoNode :=
  { name := "half", url := "u", visibility := "PUBLIC", isArchived := false,
    defaultBranchRef := none,
    languages := ⟨[⟨1, "Python"⟩], 2⟩,
    object := none }

/-- The record `process_repo` emits for `halfRepo`. -/
def infoHalf : RepoInfo :=
  { name := "half", url := "u", visibility := "PUBLIC", is_archived := false,
    last_commit := none, users := [],
    technologies := {
      languages := [⟨"Python", 1, (((1 : Int) : ℚ) / ((2 : Int) : ℚ)) * 100⟩],
      IAC := [], docs := [], cloud := [], frameworks := [].eraseDups, ci_cd := [] } }

def rtdReadme : String := "We host docs on ReadTheDocs and deploy to AWS"

/-- A repository whose README mentions the configured documentation keyword
`ReadTheDocs` (and the cloud keyword `AWS`). -/
def rtdRepo : RepoNode :=
  { name := "docs-repo", url := "u", visibility := "PUBLIC", isArchived := false,
    defaultBranchRef := none,
    languages := ⟨[], 0⟩,
    object := some ⟨some [⟨"README.md", EntryObject.blob (some rtdReadme)⟩]⟩ }

/-- A repository with a non-empty language edge list and `totalSize = 0`. -/
def zeroSizeRepo : RepoNode :=
  ⟨"z", "u", "PUBLIC", false, none, ⟨[⟨5, "Python"⟩], 0⟩, none⟩

/-- A processed record whose last commit is 10 days old (relative to
`now = 0`), not archived. -/
def recentRecord : RepoInfo :=
  ⟨"a", "u", "PUBLIC", false, some (-864000), [], ⟨[], [], [], [], [], []⟩⟩

/-- A processed record whose last commit is 200 days old (relative to
`now = 0`). -/
def staleRecord : RepoInfo :=
  ⟨"b", "u", "PUBLIC", false, some (-17280000), [], ⟨[], [], [], [], [], []⟩⟩

/-- Sum of the percentages of an emitted record's language list. -/
def pctSum (o : Option RepoInfo) : ℚ :=
  match o with
  | none => 0
  | some i => (i.technologies.languages.map (fun l => l.percentage)).sum

/-! ## Theorems -/

/-- C3: retry policy of `make_request_with_retry` with `MAX_RETRIES = 5`.
A transport that raises on the first two attempts and succeeds on the third
returns the successful response after exactly the two backoff waits 1s, 2s
(three attempts). A transport that always fails with a non-success status
is retried without raising until exhaustion: the terminal error comes after
exactly 5 attempts with the deterministic delay sequence 1s, 2s, 4s, 8s,
16s. A transport exception on the final attempt is re-raised (after the
waits 1s, 2s, 4s, 8s preceding the four retries). -/
theorem retry_policy_spec :
    make_request_with_retry
        (fun i => if i < 2 then ReqOutcome.transportError else ReqOutcome.success 42) 5
      = ⟨ReqResult.response 42, [1, 2], 3⟩
  ∧ make_request_with_retry (fun _ => ReqOutcome.badStatus 502) 5
      = ⟨ReqResult.raisedExhausted, [1, 2, 4, 8, 16], 5⟩
  ∧ make_request_with_retry (fun _ => ReqOutcome.transportError) 5
      = ⟨ReqResult.raisedTransport, [1, 2, 4, 8], 5⟩ := by
  refine ⟨by decide, by decide, by decide⟩

/-- C2: for every run of the producer's fetch loop — pagination ending by
the has-next-page flag, by a logical error array, or by an exception —
the sequence of items enqueued on the data queue is some list of data
batches followed by exactly one sentinel `none`; in particular a logical
error array in the very next response ends pagination immediately with
just the sentinel (no exception). -/
theorem producer_sentinel_spec :
    (∀ resps : List PageResp, ∃ batches : List (List RepoNode),
        fetch_data resps = batches.map some ++ [none])
  ∧ (∀ rest : List PageResp, fetch_data (PageResp.errs :: rest) = [none]) := by
  constructor
  · intro resps
    induction resps with
    | nil => exact ⟨[], rfl⟩
    | cons head rest ih =>
        cases head with
        | raised => exact ⟨[], rfl⟩
        | errs => exact ⟨[], rfl⟩
        | pageNoPageInfo rs => exact ⟨[rs], rfl⟩
        | page rs hasNext =>
            cases hasNext with
            | false => exact ⟨[rs], rfl⟩
            | true =>
                obtain ⟨bs, hbs⟩ := ih
                exact ⟨rs :: bs, by simp [fetch_data, hbs]⟩
  · intro rest
    rfl

theorem probeCodeowners_nil (fo : String → FetchResult) :
    probeCodeowners fo [] = (none, []) := rfl

/-- Unfolding one probe step of `fetch_codeowners` through `goodContent`. -/
theorem probeCodeowners_cons (fo : String → FetchResult) (p : String) (rest : List String) :
    probeCodeowners fo (p :: rest)
      = match goodContent (fo p) with
        | some t => (some t, [p])
        | none => ((probeCodeowners fo rest).1, p :: (probeCodeowners fo rest).2) := by
  cases h : fo p with
  | file t =>
      cases t with
      | none => simp [probeCodeowners, goodContent, h]
      | some s =>
          by_cases hs : s = ("")
          · simp [probeCodeowners, goodContent, h, hs]
          · simp [probeCodeowners, goodContent, h, hs]
  | raised => simp [probeCodeowners, goodContent, h]
  | errs => simp [probeCodeowners, goodContent, h]
  | fileNull => simp [probeCodeowners, goodContent, h]

/-- C9 (amended): `fetch_codeowners` probes `CODEOWNERS`,
`.github/CODEOWNERS`, `docs/CODEOWNERS`, `.gitlab/CODEOWNERS` in that fixed
order; the first path whose fetch yields truthy content — non-null AND
non-empty `text`, skipping errored fetches — wins, and no further path is
fetched after that first hit; when no candidate yields such content the
result is null after probing all four paths. -/
theorem codeowners_probe_refined :
    ∀ (fo : String → String → FetchResult) (branch t : String),
    (goodContent (fo branch ("CODEOWNERS")) = some t →
        fetch_codeowners fo branch = (some t, [("CODEOWNERS")]))
  ∧ (goodContent (fo branch ("CODEOWNERS")) = none →
     goodContent (fo branch (".github/CODEOWNERS")) = some t →
        fetch_codeowners fo branch
          = (some t, [("CODEOWNERS"), (".github/CODEOWNERS")]))
  ∧ (goodContent (fo branch ("CODEOWNERS")) = none →
     goodContent (fo branch (".github/CODEOWNERS")) = none →
     goodContent (fo branch ("docs/CODEOWNERS")) = some t →
        fetch_codeowners fo branch
          = (some t, [("CODEOWNERS"), (".github/CODEOWNERS"), ("docs/CODEOWNERS")]))
  ∧ (goodContent (fo branch ("CODEOWNERS")) = none →
     goodContent (fo branch (".github/CODEOWNERS")) = none →
     goodContent (fo branch ("docs/CODEOWNERS")) = none →
     goodContent (fo branch (".gitlab/CODEOWNERS")) = some t →
        fetch_codeowners fo branch = (some t, codeowners_paths))
  ∧ ((∀ p ∈ codeowners_paths, goodContent (fo branch p) = none) →
        fetch_codeowners fo branch = (none, codeowners_paths)) := by
  intro fo branch t
  refine ⟨?_, ?_, ?_, ?_, ?_⟩
  · intro h1
    simp [fetch_codeowners, codeowners_paths, probeCodeowners_cons, h1]
  · intro h1 h2
    simp [fetch_codeowners, codeowners_paths, probeCodeowners_cons, h1, h2]
  · intro h1 h2 h3
    simp [fetch_codeowners, codeowners_paths, probeCodeowners_cons, h1, h2, h3]
  · intro h1 h2 h3 h4
    simp [fetch_codeowners, codeowners_paths, probeCodeowners_cons, h1, h2, h3, h4]
  · intro h
    have h1 := h ("CODEOWNERS") (by simp [codeowners_paths])
    have h2 := h (".github/CODEOWNERS") (by simp [codeowners_paths])
    have h3 := h ("docs/CODEOWNERS") (by simp [codeowners_paths])
    have h4 := h (".gitlab/CODEOWNERS") (by simp [codeowners_paths])
    simp [fetch_codeowners, codeowners_paths, probeCodeowners_cons, h1, h2, h3, h4,
      probeCodeowners_nil]

/-- C9 witness: with the root fetch yielding nothing and the `.github`
fetch yielding content, the probe stops after the second path with that
content. -/
theorem codeowners_probe_refined_witness :
    goodContent ((fun _ p => if p = (".github/CODEOWNERS")
        then FetchResult.file (some ("x")) else FetchResult.fileNull)
        ("main") ("CODEOWNERS")) = none
  ∧ goodContent ((fun _ p => if p = (".github/CODEOWNERS")
        then FetchResult.file (some ("x")) else FetchResult.fileNull)
        ("main") (".github/CODEOWNERS")) = some ("x")
  ∧ fetch_codeowners
        (fun _ p => if p = (".github/CODEOWNERS")
          then FetchResult.file (some ("x")) else FetchResult.fileNull) ("main")
      = (some ("x"), [("CODEOWNERS"), (".github/CODEOWNERS")]) :=
  ⟨by decide, by decide,
    (codeowners_probe_refined
        (fun _ p => if p = (".github/CODEOWNERS")
          then FetchResult.file (some ("x")) else FetchResult.fileNull)
        ("main") ("x")).2.1 (by decide) (by decide)⟩

/-- C9 counterexample: every path's fetch returns the non-null content `""`;
the claim as stated predicts that the first path's content `""` is returned
with no further probing, but the source treats empty content as falsy: it
probes all four paths and returns null. -/
theorem codeowners_probe_empty_cex :
    fetch_codeowners (fun _ _ => FetchResult.file (some (""))) ("main")
        = (none, codeowners_paths)
  ∧ (fetch_codeowners (fun _ _ => FetchResult.file (some (""))) ("main")).1
        ≠ some ("") := by
  refine ⟨by decide, by decide⟩

/-- With pairwise-distinct slugs, filtering the team list on one member's
slug yields exactly that member. -/
theorem filter_slug_eq :
    ∀ (all : List OrgTeam), (all.map (fun t => t.slug)).Nodup →
      ∀ t ∈ all, all.filter (fun u => u.slug = t.slug) = [t] := by
  intro all
  induction all with
  | nil => intro _ t ht; cases ht
  | cons u rest ih =>
      intro hnd t ht
      rw [List.map_cons, List.nodup_cons] at hnd
      obtain ⟨hu, hrest⟩ := hnd
      rcases List.mem_cons.mp ht with heq | hmem
      · subst heq
        have hnone : rest.filter (fun u => u.slug = t.slug) = [] := by
          rw [List.filter_eq_nil_iff]
          intro x hx
          simp only [decide_eq_true_eq]
          intro hxs
          exact hu (by
            rw [← hxs]
            exact List.mem_map_of_mem (fun t => t.slug) hx)
        simp [List.filter_cons, hnone]
      · have hne : ¬(u.slug = t.slug) := by
          intro hus
          exact hu (by
            rw [hus]
            exact List.mem_map_of_mem (fun t => t.slug) hmem)
        simp [List.filter_cons, hne, ih hrest t hmem]

/-- The slug fold of `parse_codeowners`, evaluated over any suffix of the
team list, appends exactly the names of the suffix's teams whose needle
occurs in the lowered content. -/
theorem parse_fold (org lhay : String) (all : List OrgTeam)
    (hnd : (all.map (fun t => t.slug)).Nodup) :
    ∀ (pending : List OrgTeam) (acc : List String), pending <:+ all →
      (pending.map (fun t => t.slug)).foldl (parseStep org all lhay) acc
        = acc ++ (pending.filter
            (fun t => strIn (("@") ++ org ++ ("/") ++ t.slug) lhay)).map (fun t => t.name) := by
  intro pending
  induction pending with
  | nil => intro acc _; simp
  | cons t rest ih =>
      intro acc hsuf
      have htall : t ∈ all := hsuf.subset (List.mem_cons_self t rest)
      have hrest : rest <:+ all := (List.suffix_cons t rest).trans hsuf
      have hfilter := filter_slug_eq all hnd t htall
      rw [List.map_cons, List.foldl_cons]
      by_cases hhit : strIn (("@") ++ org ++ ("/") ++ t.slug) lhay = true
      · rw [ih (parseStep org all lhay acc t.slug) hrest]
        simp [parseStep, hhit, hfilter, List.filter_cons]
      · rw [ih (parseStep org all lhay acc t.slug) hrest]
        simp only [Bool.not_eq_true] at hhit
        simp [parseStep, hhit, List.filter_cons]

/-- C6 (amended): `parse_codeowners` returns `[]` for null (and empty)
content; otherwise, after replacing newlines with spaces, it returns — for
team lists with pairwise-distinct slugs, deduplicated and in first-match
order — the display names of exactly those organization teams whose needle
`"@{org}/{slug}"`, written exactly as-is (NOT lowercased), occurs in the
lowercased content: matching is case-insensitive in the content only for a
lowercase organisation and slug. The claim's concrete examples (lowercase
slugs) hold. -/
theorem codeowners_parse_refined :
    (∀ (org : String) (teams : List OrgTeam) (content : Option String),
      (teams.map (fun t => t.slug)).Nodup →
      parse_codeowners org teams content
        = match content with
          | none => []
          | some c =>
              if c = ("") then []
              else (teams.filter (fun t =>
                  strIn (("@") ++ org ++ ("/") ++ t.slug)
                    (pyLower (replaceNewlines c)))).map (fun t => t.name))
  ∧ parse_codeowners ("acme") [⟨"Team A", "team-a"⟩]
      (some ("say hi to @acme/team-a today")) = ["Team A"]
  ∧ parse_codeowners ("acme") [⟨"Team A", "team-a"⟩] (some ("no teams here")) = []
  ∧ parse_codeowners ("acme") [⟨"Team A", "team-a"⟩] none = [] := by
  refine ⟨?_, by decide, by decide, by decide⟩
  intro org teams content hnd
  match content with
  | none => rfl
  | some c =>
      by_cases hc : c = ("")
      · simp [parse_codeowners, hc]
      · simp only [parse_codeowners, hc, if_false]
        exact parse_fold org (pyLower (replaceNewlines c)) teams hnd teams []
          (List.suffix_refl teams)

/-- C6 witness: the filter characterisation applied to a concrete team list
and content. -/
theorem codeowners_parse_refined_witness :
    (([⟨"Team A", "team-a"⟩] : List OrgTeam).map (fun t => t.slug)).Nodup
  ∧ parse_codeowners ("acme") [⟨"Team A", "team-a"⟩] (some ("x @acme/team-a y"))
      = if ("x @acme/team-a y") = ("") then []
        else (([⟨"Team A", "team-a"⟩] : List OrgTeam).filter (fun t =>
            strIn (("@") ++ ("acme") ++ ("/") ++ t.slug)
              (pyLower (replaceNewlines ("x @acme/team-a y"))))).map (fun t => t.name) :=
  ⟨by decide,
    codeowners_parse_refined.1 ("acme") [⟨"Team A", "team-a"⟩]
      (some ("x @acme/team-a y")) (by decide)⟩

/-- C6 counterexample: the organisation team has the slug `Team-A` and the
content contains `@acme/Team-A` verbatim — so the needle occurs in the
content literally, hence certainly as a case-insensitive substring — yet
`parse_codeowners` returns `[]`, because the needle is matched, without
being lowercased, against the lowercased content. The claim as stated
predicts `["Team A"]`. -/
theorem codeowners_parse_case_cex :
    parse_codeowners ("acme") [⟨"Team A", "Team-A"⟩] (some ("@acme/Team-A")) = []
  ∧ strIn (("@acme/") ++ ("Team-A")) ("@acme/Team-A") = true
  ∧ strIn (pyLower (("@acme/") ++ ("Team-A"))) (pyLower ("@acme/Team-A")) = true := by
  refine ⟨by decide, by decide, by decide⟩

/-- C8 (code bug): the README scan iterates over
`zip(documentation_list, cloud_services_list)`, and `zip` truncates the
four-element documentation list to the three-element cloud list, so the
configured documentation keyword `ReadTheDocs` is never searched: a README
containing `ReadTheDocs` (and `AWS`) yields `docs = []` (and
`cloud = ["AWS"]`), although `ReadTheDocs` is a configured keyword that
occurs case-insensitively in the content. -/
theorem readme_keyword_zip_bug :
    (recordOf ("org") [] noFetch rtdRepo).map
        (fun i => (i.technologies.docs, i.technologies.cloud))
      = some ([], [("AWS")])
  ∧ ("ReadTheDocs") ∈ documentation_list
  ∧ strIn (pyLower ("ReadTheDocs")) (pyLower rtdReadme) = true
  ∧ documentation_list.zip cloud_services_list
      = [(("Confluence"), ("AWS")), (("MKDocs"), ("Azure")), (("Sphinx"), ("GCP"))] := by
  refine ⟨by decide, by decide, by decide, by decide⟩

/-- C10: a node with a non-empty language edge list and `totalSize = 0`
reaches the unguarded division `(edge["size"] / total_size) * 100`; the
raised `ZeroDivisionError` aborts the edge loop (`ok = false`), the
per-item handler makes `process_repo` return no record, and — the division
raising at the first edge, before any statistics update — the statistics
state is left unchanged, so the repository is silently dropped instead of
aborting the run. -/
theorem division_by_zero_drop_spec :
    ∀ (org : String) (org_teams : List OrgTeam)
      (fo : String → String → String → FetchResult)
      (r : RepoNode) (st : ConsumerStats),
      r.languages.edges ≠ [] → r.languages.totalSize = 0 →
      (processEdges r.isArchived r.languages.totalSize r.languages.edges st [] []).ok = false
      ∧ (process_repo org org_teams fo r st).2 = none
      ∧ (process_repo org org_teams fo r st).1 = st := by
  intro org org_teams fo r st hne hz
  match hedges : r.languages.edges with
  | [] => exact absurd hedges hne
  | e :: rest =>
      have hok : processEdges r.isArchived r.languages.totalSize (e :: rest) st [] []
          = ⟨st, (if e.name = ("Dockerfile")
                    then (if e.name = ("HCL") then [("Terraform")] else []) ++ [("Docker")]
                    else (if e.name = ("HCL") then [("Terraform")] else [])), [], false⟩ := by
        simp [processEdges, hz]
      refine ⟨by rw [hok], ?_, ?_⟩
      · simp only [process_repo, hedges, hok]
        simp
      · simp only [process_repo, hedges, hok]
        simp

/-- C10 witness: the concrete zero-total repository is dropped with the
statistics untouched. -/
theorem division_by_zero_drop_spec_witness :
    zeroSizeRepo.languages.edges ≠ [] ∧ zeroSizeRepo.languages.totalSize = 0
  ∧ ((processEdges zeroSizeRepo.isArchived zeroSizeRepo.languages.totalSize
        zeroSizeRepo.languages.edges emptyConsumerStats [] []).ok = false
      ∧ (process_repo ("o") [] noFetch zeroSizeRepo emptyConsumerStats).2 = none
      ∧ (process_repo ("o") [] noFetch zeroSizeRepo emptyConsumerStats).1 = emptyConsumerStats) :=
  ⟨by decide, by decide,
    division_by_zero_drop_spec ("o") [] noFetch zeroSizeRepo emptyConsumerStats
      (by decide) (by decide)⟩

/-- The non-state components of the edge loop (IaC tags, record entries,
success flag) do not depend on the statistics state being threaded. -/
theorem processEdges_indep (b : Bool) (T : Int) :
    ∀ (edges : List LangEdge) (st st' : ConsumerStats)
      (iac : List String) (langs : List LangInfo),
      (processEdges b T edges st iac langs).IAC
          = (processEdges b T edges st' iac langs).IAC
    ∧ (processEdges b T edges st iac langs).languages
          = (processEdges b T edges st' iac langs).languages
    ∧ (processEdges b T edges st iac langs).ok
          = (processEdges b T edges st' iac langs).ok := by
  intro edges
  induction edges with
  | nil => intro st st' iac langs; exact ⟨rfl, rfl, rfl⟩
  | cons e rest ih =>
      intro st st' iac langs
      by_cases hT : T = 0
      · simp [processEdges, hT]
      · simp only [processEdges, if_neg hT]
        exact ih _ _ _ _

/-- The record emitted by `process_repo` does not depend on the accumulated
statistics: it always equals `recordOf`. -/
theorem process_repo_snd_eq (org : String) (org_teams : List OrgTeam)
    (fo : String → String → String → FetchResult) (r : RepoNode) (st : ConsumerStats) :
    (process_repo org org_teams fo r st).2 = recordOf org org_teams fo r := by
  show (process_repo org org_teams fo r st).2
      = (process_repo org org_teams fo r emptyConsumerStats).2
  by_cases he : r.languages.edges = []
  · simp [process_repo, he]
    split <;> rfl
  · obtain ⟨hIAC, hlangs, hok⟩ :=
      processEdges_indep r.isArchived r.languages.totalSize r.languages.edges
        st emptyConsumerStats [] []
    simp only [process_repo, if_neg he]
    rw [hok, hIAC, hlangs]
    split
    · rfl
    · split <;> rfl

/-- The records a batch produces are the `filterMap` of the per-repository
record function over the batch. -/
theorem processBatch_records (org : String) (org_teams : List OrgTeam)
    (fo : String → String → String → FetchResult) :
    ∀ (rs : List RepoNode) (st : ConsumerStats),
      (processBatch org org_teams fo rs st).2
        = rs.filterMap (recordOf org org_teams fo) := by
  intro rs
  induction rs with
  | nil => intro st; rfl
  | cons r rest ih =>
      intro st
      simp only [processBatch]
      rw [process_repo_snd_eq org org_teams fo r st, List.filterMap_cons]
      cases hrec : recordOf org org_teams fo r
      · simp [ih]
      · simp [ih]

theorem process_data_records (org : String) (org_teams : List OrgTeam)
    (fo : String → String → String → FetchResult) :
    ∀ (batches : List (List RepoNode)) (st : ConsumerStats),
      (process_data org org_teams fo batches st).2
        = batches.map (fun b => b.filterMap (recordOf org org_teams fo)) := by
  intro batches
  induction batches with
  | nil => intro st; rfl
  | cons b bs ih =>
      intro st
      simp only [process_data, List.map_cons]
      rw [processBatch_records, ih]

/-- C4: any exception while classifying one repository node is caught at
the `process_repo` level: the node's record is `none` (a pure function of
the node alone), it is omitted from the batch's results and the final
output, and the remaining nodes of the batch and the later batches are
processed exactly as they would be without the failing node; per-item
errors never propagate out of the consumer's outer loop (the consumer is a
total function of its input batches). -/
theorem consumer_isolation_spec :
    ∀ (org : String) (org_teams : List OrgTeam)
      (fo : String → String → String → FetchResult)
      (batches : List (List RepoNode)) (st : ConsumerStats),
      ((process_data org org_teams fo batches st).2
          = batches.map (fun b => b.filterMap (recordOf org org_teams fo)))
    ∧ (∀ (pre post : List RepoNode) (r : RepoNode),
        recordOf org org_teams fo r = none →
        (pre ++ r :: post).filterMap (recordOf org org_teams fo)
          = (pre ++ post).filterMap (recordOf org org_teams fo)) := by
  intro org org_teams fo batches st
  refine ⟨process_data_records org org_teams fo batches st, ?_⟩
  intro pre post r h
  simp [List.filterMap_append, List.filterMap_cons, h]

/-- C4 witness: the repository whose root-tree scan raises is dropped and a
batch with it produces the same records as the batch without it. -/
theorem consumer_isolation_spec_witness :
    recordOf ("org") [] noFetch badRepo = none
  ∧ ([goodRepo] ++ badRepo :: [goodRepo]).filterMap (recordOf ("org") [] noFetch)
      = ([goodRepo] ++ [goodRepo]).filterMap (recordOf ("org") [] noFetch) :=
  ⟨by decide,
    (consumer_isolation_spec ("org") [] noFetch [] emptyConsumerStats).2
      [goodRepo] [goodRepo] badRepo (by decide)⟩

/-- With a non-empty edge list and `totalSize = 0`, the edge loop raises at
the first division. -/
theorem processEdges_zero_not_ok (b : Bool) (e : LangEdge) (rest : List LangEdge)
    (st : ConsumerStats) (iac : List String) (langs : List LangInfo) :
    (processEdges b 0 (e :: rest) st iac langs).ok = false := by
  simp [processEdges]

/-- With a non-zero total, the edge loop succeeds and its record entries
are the edges with their computed percentages, in order. -/
theorem processEdges_langs (b : Bool) (T : Int) (hT : T ≠ 0) :
    ∀ (edges : List LangEdge) (st : ConsumerStats)
      (iac : List String) (langs : List LangInfo),
      (processEdges b T edges st iac langs).languages
        = langs ++ edges.map (fun e => ⟨e.name, e.size, ((e.size : ℚ) / (T : ℚ)) * 100⟩)
    ∧ (processEdges b T edges st iac langs).ok = true := by
  intro edges
  induction edges with
  | nil => intro st iac langs; simp [processEdges]
  | cons e rest ih =>
      intro st iac langs
      simp only [processEdges, if_neg hT]
      obtain ⟨h1, h2⟩ := ih (applyEdgeStats b st e.name (((e.size : ℚ) / (T : ℚ)) * 100) e.size)
        (if e.name = ("Dockerfile")
          then (if e.name = ("HCL") then iac ++ [("Terraform")] else iac) ++ [("Docker")]
          else (if e.name = ("HCL") then iac ++ [("Terraform")] else iac))
        (langs ++ [⟨e.name, e.size, ((e.size : ℚ) / (T : ℚ)) * 100⟩])
      refine ⟨?_, h2⟩
      rw [h1]
      simp

/-- A record emitted for a node with a non-empty edge list forces a
non-zero total and carries exactly the per-edge percentages. -/
theorem process_repo_langs_of_some (org : String) (org_teams : List OrgTeam)
    (fo : String → String → String → FetchResult) (r : RepoNode)
    (st : ConsumerStats) (i : RepoInfo)
    (hi : (process_repo org org_teams fo r st).2 = some i)
    (hne : r.languages.edges ≠ []) :
    r.languages.totalSize ≠ 0
    ∧ i.is_archived = r.isArchived
    ∧ i.technologies.languages
        = r.languages.edges.map
            (fun e => ⟨e.name, e.size, ((e.size : ℚ) / (r.languages.totalSize : ℚ)) * 100⟩) := by
  by_cases hT : r.languages.totalSize = 0
  · exfalso
    match hedges : r.languages.edges with
    | [] => exact hne hedges
    | e :: rest =>
        have hok := processEdges_zero_not_ok r.isArchived e rest st [] []
        have h2 : (process_repo org org_teams fo r st).2 = none := by
          simp only [process_repo, if_neg hne, hedges, hT]
          simp [hok]
        rw [h2] at hi
        cases hi
  · obtain ⟨hlangs, hok⟩ :=
      processEdges_langs r.isArchived r.languages.totalSize hT r.languages.edges st [] []
    refine ⟨hT, ?_, ?_⟩
    all_goals
      simp only [process_repo, if_neg hne, hok] at hi
      simp only [Bool.true_eq_false, ite_false] at hi
      revert hi
      split
      · intro hi; cases hi
      · intro hi
        cases hi
        simp [hlangs]

/-- Sum of the computed percentages over a mapped edge list. -/
theorem sum_map_pct (T : Int) :
    ∀ l : List LangEdge,
      ((l.map (fun e =>
          (⟨e.name, e.size, ((e.size : ℚ) / (T : ℚ)) * 100⟩ : LangInfo))).map
            (fun li => li.percentage)).sum
        = ((l.map (fun e => (e.size : ℚ))).sum / (T : ℚ)) * 100 := by
  intro l
  induction l with
  | nil => simp
  | cons e rest ih =>
      simp only [List.map_cons, List.sum_cons]
      rw [ih, add_div, add_mul]

/-- Casting an integer edge-size sum to the rationals. -/
theorem sum_cast_sizes :
    ∀ l : List LangEdge,
      (((l.map (fun e => e.size)).sum : Int) : ℚ) = (l.map (fun e => (e.size : ℚ))).sum := by
  intro l
  induction l with
  | nil => simp
  | cons e rest ih => simp [ih]

/-- C5 (amended): for every successfully processed node with a non-empty
language edge list and positive total size, each emitted percentage equals
`size / total_size * 100`; and provided the reported `totalSize` equals the
sum of the emitted edge sizes — which the GraphQL `languages(first: 10)`
connection does NOT guarantee, since it truncates the edge list while
reporting the full total — the percentages sum to exactly 100 (exact
arithmetic, hence within any floating tolerance). -/
theorem percentage_sum_refined :
    ∀ (org : String) (org_teams : List OrgTeam)
      (fo : String → String → String → FetchResult)
      (r : RepoNode) (st : ConsumerStats) (i : RepoInfo),
      (process_repo org org_teams fo r st).2 = some i →
      r.languages.edges ≠ [] →
      0 < r.languages.totalSize →
      r.languages.totalSize = (r.languages.edges.map (fun e => e.size)).sum →
      i.technologies.languages
        = r.languages.edges.map
            (fun e => ⟨e.name, e.size, ((e.size : ℚ) / (r.languages.totalSize : ℚ)) * 100⟩)
      ∧ (i.technologies.languages.map (fun li => li.percentage)).sum = 100 := by
  intro org org_teams fo r st i hi hne hpos htot
  obtain ⟨hT, _, hlangs⟩ := process_repo_langs_of_some org org_teams fo r st i hi hne
  refine ⟨hlangs, ?_⟩
  rw [hlangs, sum_map_pct]
  rw [← sum_cast_sizes, ← htot]
  have hcast : ((r.languages.totalSize : Int) : ℚ) ≠ 0 := by
    exact_mod_cast hT
  rw [div_self hcast, one_mul]

/-- C5 witness: the two-language repository with consistent total. -/
theorem percentage_sum_refined_witness :
    (process_repo ("o") [] noFetch goodRepo emptyConsumerStats).2 = some infoGood
  ∧ goodRepo.languages.edges ≠ []
  ∧ 0 < goodRepo.languages.totalSize
  ∧ goodRepo.languages.totalSize = (goodRepo.languages.edges.map (fun e => e.size)).sum
  ∧ (infoGood.technologies.languages
        = goodRepo.languages.edges.map
            (fun e => ⟨e.name, e.size, ((e.size : ℚ) / (goodRepo.languages.totalSize : ℚ)) * 100⟩)
      ∧ (infoGood.technologies.languages.map (fun li => li.percentage)).sum = 100) :=
  ⟨rfl, by decide, by decide, by decide,
    percentage_sum_refined ("o") [] noFetch goodRepo emptyConsumerStats infoGood rfl
      (by decide) (by decide) (by decide)⟩

/-- C5 counterexample: a node with one language edge of size 1 and
`totalSize = 2` (edge sizes do not sum to the total) — non-empty edges,
positive total, successfully processed — yields a percentage sum of 50,
not within any sub-50 tolerance of 100, refuting the claim as stated. -/
theorem percentage_sum_cex :
    recordOf ("o") [] noFetch halfRepo = some infoHalf
  ∧ halfRepo.languages.edges ≠ []
  ∧ 0 < halfRepo.languages.totalSize
  ∧ pctSum (recordOf ("o") [] noFetch halfRepo) = 50
  ∧ ¬(|pctSum (recordOf ("o") [] noFetch halfRepo) - 100| ≤ 1) := by
  have h : recordOf ("o") [] noFetch halfRepo = some infoHalf := rfl
  have hp : pctSum (recordOf ("o") [] noFetch halfRepo) = 50 := by
    rw [h]
    show ((infoHalf.technologies.languages.map (fun l => l.percentage)).sum : ℚ) = 50
    norm_num [infoHalf]
  refine ⟨h, by decide, by decide, hp, ?_⟩
  rw [hp]
  norm_num

/-- C7: within each archived/unarchived partition the three activity
counters independently count the repositories with a truthy `last_commit`,
matching archived flag and elapsed days at most 30, 90, 180 respectively;
the windows are nested rather than mutually exclusive (each counter is
monotone in the window length); a repository 10 days old and unarchived is
counted in all three unarchived windows, and one 200 days old is counted in
none of the six. -/
theorem activity_windows_spec :
    ∀ (now : Int) (repos : List RepoInfo) (cs : ConsumerStats) (arch : Bool),
      ((computeOutput now repos cs).stats_unarchived.active_last_month
          = activeCount now false 30 repos
        ∧ (computeOutput now repos cs).stats_unarchived.active_last_3months
          = activeCount now false 90 repos
        ∧ (computeOutput now repos cs).stats_unarchived.active_last_6months
          = activeCount now false 180 repos
        ∧ (computeOutput now repos cs).stats_archived.active_last_month
          = activeCount now true 30 repos
        ∧ (computeOutput now repos cs).stats_archived.active_last_3months
          = activeCount now true 90 repos
        ∧ (computeOutput now repos cs).stats_archived.active_last_6months
          = activeCount now true 180 repos)
    ∧ (∀ d1 d2 : Int, d1 ≤ d2 →
        activeCount now arch d1 repos ≤ activeCount now arch d2 repos)
    ∧ (∀ r : RepoInfo, r.is_archived = false →
        r.last_commit = some (now - 10 * 86400) →
          (computeOutput now [r] cs).stats_unarchived.active_last_month = 1
        ∧ (computeOutput now [r] cs).stats_unarchived.active_last_3months = 1
        ∧ (computeOutput now [r] cs).stats_unarchived.active_last_6months = 1)
    ∧ (∀ r : RepoInfo, r.last_commit = some (now - 200 * 86400) →
          (computeOutput now [r] cs).stats_unarchived.active_last_month = 0
        ∧ (computeOutput now [r] cs).stats_unarchived.active_last_3months = 0
        ∧ (computeOutput now [r] cs).stats_unarchived.active_last_6months = 0
        ∧ (computeOutput now [r] cs).stats_archived.active_last_month = 0
        ∧ (computeOutput now [r] cs).stats_archived.active_last_3months = 0
        ∧ (computeOutput now [r] cs).stats_archived.active_last_6months = 0) := by
  intro now repos cs arch
  refine ⟨⟨rfl, rfl, rfl, rfl, rfl, rfl⟩, ?_, ?_, ?_⟩
  · intro d1 d2 hd
    have hmono : ∀ r ∈ repos,
        (match r.last_commit with
          | some ts => r.is_archived == arch && decide (daysSince now ts ≤ d1)
          | none => false) = true →
        (match r.last_commit with
          | some ts => r.is_archived == arch && decide (daysSince now ts ≤ d2)
          | none => false) = true := by
      intro r _
      cases hlc : r.last_commit with
      | none => intro hp; cases hp
      | some ts =>
          intro hp
          simp only [Bool.and_eq_true, decide_eq_true_eq] at hp ⊢
          exact ⟨hp.1, le_trans hp.2 hd⟩
    unfold activeCount
    exact_mod_cast List.countP_mono_left hmono
  · intro r harch hlc
    have hdays : daysSince now (now - 864000) = 10 := by
      unfold daysSince
      rw [sub_sub_cancel]
      decide
    refine ⟨?_, ?_, ?_⟩ <;>
      simp [computeOutput, activeCount, List.countP_cons, List.countP_nil,
        hlc, harch, hdays]
  · intro r hlc
    have hdays : daysSince now (now - 17280000) = 200 := by
      unfold daysSince
      rw [sub_sub_cancel]
      decide
    refine ⟨?_, ?_, ?_, ?_, ?_, ?_⟩ <;>
      simp [computeOutput, activeCount, List.countP_cons, List.countP_nil,
        hlc, hdays]

/-- C7 witness: the 10-day-old unarchived record is counted in all three
unarchived windows, the 200-day-old record in none of the six. -/
theorem activity_windows_spec_witness :
    recentRecord.is_archived = false
  ∧ recentRecord.last_commit = some (0 - 10 * 86400)
  ∧ staleRecord.last_commit = some (0 - 200 * 86400)
  ∧ ((computeOutput 0 [recentRecord] emptyConsumerStats).stats_unarchived.active_last_month = 1
      ∧ (computeOutput 0 [recentRecord] emptyConsumerStats).stats_unarchived.active_last_3months = 1
      ∧ (computeOutput 0 [recentRecord] emptyConsumerStats).stats_unarchived.active_last_6months = 1)
  ∧ ((computeOutput 0 [staleRecord] emptyConsumerStats).stats_unarchived.active_last_month = 0
      ∧ (computeOutput 0 [staleRecord] emptyConsumerStats).stats_unarchived.active_last_3months = 0
      ∧ (computeOutput 0 [staleRecord] emptyConsumerStats).stats_unarchived.active_last_6months = 0
      ∧ (computeOutput 0 [staleRecord] emptyConsumerStats).stats_archived.active_last_month = 0
      ∧ (computeOutput 0 [staleRecord] emptyConsumerStats).stats_archived.active_last_3months = 0
      ∧ (computeOutput 0 [staleRecord] emptyConsumerStats).stats_archived.active_last_6months = 0) :=
  ⟨by decide, by decide, by decide,
    (activity_windows_spec 0 [recentRecord] emptyConsumerStats false).2.2.1
      recentRecord (by decide) (by decide),
    (activity_windows_spec 0 [staleRecord] emptyConsumerStats false).2.2.2
      staleRecord (by decide)⟩

/-- The statistics dictionary chosen by the archived flag is the one the
edge update writes. -/
theorem partStats_applyEdgeStats_same (b : Bool) (st : ConsumerStats)
    (lang : String) (pct : ℚ) (sz : Int) :
    partStats b (applyEdgeStats b st lang pct sz)
      = updateStat (partStats b st) lang pct sz := by
  cases b <;> simp [partStats, applyEdgeStats]

/-- The other partition is untouched by one edge update. -/
theorem partStats_applyEdgeStats_other (b b' : Bool) (hbb : b' ≠ b)
    (st : ConsumerStats) (lang : String) (pct : ℚ) (sz : Int) :
    partStats b' (applyEdgeStats b st lang pct sz) = partStats b' st := by
  cases b <;> cases b' <;> simp_all [partStats, applyEdgeStats]

/-- `repo_count` after one dictionary update. -/
theorem rcOf_updateStat (m : StatsMap) (lang : String) (pct : ℚ) (sz : Int) (n : String) :
    rcOf (updateStat m lang pct sz n) = rcOf (m n) + (if n = lang then 1 else 0) := by
  by_cases h : n = lang
  · subst h
    cases hm : m n <;> simp [updateStat, rcOf, hm]
  · simp [updateStat, h]

theorem updateStat_other (m : StatsMap) (lang : String) (pct : ℚ) (sz : Int)
    (n : String) (h : n ≠ lang) : updateStat m lang pct sz n = m n := by
  simp [updateStat, h]

/-- The edge loop never writes the partition not matching the archived
flag. -/
theorem partStats_processEdges_other (b b' : Bool) (hbb : b' ≠ b) (T : Int) :
    ∀ (edges : List LangEdge) (st : ConsumerStats)
      (iac : List String) (langs : List LangInfo),
      partStats b' (processEdges b T edges st iac langs).stats = partStats b' st := by
  intro edges
  induction edges with
  | nil => intro st iac langs; rfl
  | cons e rest ih =>
      intro st iac langs
      by_cases hT : T = 0
      · simp [processEdges, hT]
      · simp only [processEdges, if_neg hT]
        rw [ih]
        exact partStats_applyEdgeStats_other b b' hbb st e.name _ e.size

/-- The matching partition's entry for a language not named by any edge is
untouched by the edge loop. -/
theorem partStats_processEdges_notmem (b : Bool) (T : Int) (L : String) :
    ∀ (edges : List LangEdge) (st : ConsumerStats)
      (iac : List String) (langs : List LangInfo),
      L ∉ edges.map (fun e => e.name) →
      partStats b (processEdges b T edges st iac langs).stats L = partStats b st L := by
  intro edges
  induction edges with
  | nil => intro st iac langs _; rfl
  | cons e rest ih =>
      intro st iac langs hL
      rw [List.map_cons, List.mem_cons] at hL
      push_neg at hL
      by_cases hT : T = 0
      · simp [processEdges, hT]
      · simp only [processEdges, if_neg hT]
        rw [ih _ _ _ hL.2, partStats_applyEdgeStats_same,
          updateStat_other _ _ _ _ _ hL.1]

/-- With a non-zero total and pairwise-distinct edge names, the edge loop
adds exactly one to the matching partition's `repo_count` of each language
named by an edge, and nothing to any other language. -/
theorem rcOf_processEdges (b : Bool) (T : Int) (hT : T ≠ 0) (L : String) :
    ∀ (edges : List LangEdge) (st : ConsumerStats)
      (iac : List String) (langs : List LangInfo),
      (edges.map (fun e => e.name)).Nodup →
      rcOf (partStats b (processEdges b T edges st iac langs).stats L)
        = rcOf (partStats b st L)
          + (if L ∈ edges.map (fun e => e.name) then 1 else 0) := by
  intro edges
  induction edges with
  | nil => intro st iac langs _; simp [processEdges]
  | cons e rest ih =>
      intro st iac langs hnd
      rw [List.map_cons, List.nodup_cons] at hnd
      obtain ⟨hhead, htail⟩ := hnd
      simp only [processEdges, if_neg hT]
      by_cases hL : L = e.name
      · subst hL
        rw [partStats_processEdges_notmem b T e.name rest _ _ _ hhead,
          partStats_applyEdgeStats_same, rcOf_updateStat]
        simp
      · rw [ih _ _ _ htail, partStats_applyEdgeStats_same,
          updateStat_other _ _ _ _ _ hL]
        have : (L ∈ e.name :: rest.map (fun e => e.name)) ↔ (L ∈ rest.map (fun e => e.name)) := by
          simp [hL]
        simp only [List.map_cons, this]

/-- The statistics component of `process_repo`: the state after the edge
loop, whether or not the record was emitted. -/
theorem process_repo_fst (org : String) (org_teams : List OrgTeam)
    (fo : String → String → String → FetchResult) (r : RepoNode) (st : ConsumerStats) :
    (process_repo org org_teams fo r st).1
      = (if r.languages.edges = [] then st
         else (processEdges r.isArchived r.languages.totalSize r.languages.edges st [] []).stats) := by
  by_cases he : r.languages.edges = []
  · simp [process_repo, he]
    split <;> rfl
  · simp only [process_repo, if_neg he]
    split
    · rfl
    · split <;> rfl

/-- A record emitted for a node without language edges has an empty
language list. -/
theorem process_repo_nil_langs (org : String) (org_teams : List OrgTeam)
    (fo : String → String → String → FetchResult) (r : RepoNode)
    (st : ConsumerStats) (i : RepoInfo) (he : r.languages.edges = [])
    (hi : (process_repo org org_teams fo r st).2 = some i) :
    i.technologies.languages = [] ∧ i.is_archived = r.isArchived := by
  revert hi
  simp [process_repo, he]
  split
  · intro hi; cases hi
  · intro hi
    cases hi
    exact ⟨rfl, rfl⟩

/-- The contribution of one processed item to the count of records with
archived flag `b` containing language `L`. -/
def recContribution (b : Bool) (L : String) : Option RepoInfo → Int
  | some i =>
      if i.is_archived == b
          && (i.technologies.languages.map (fun l => l.name)).contains L
      then 1 else 0
  | none => 0

theorem countLangRecords_nil (b : Bool) (L : String) :
    countLangRecords b L [] = 0 := rfl

theorem countLangRecords_cons (b : Bool) (L : String) (i : RepoInfo) (recs : List RepoInfo) :
    countLangRecords b L (i :: recs)
      = recContribution b L (some i) + countLangRecords b L recs := by
  simp only [countLangRecords, recContribution, List.filter_cons]
  cases h : (i.is_archived == b
      && (i.technologies.languages.map (fun l => l.name)).contains L) with
  | false =>
      simp only [h, Bool.false_eq_true, if_false]
      omega
  | true =>
      simp only [h, if_true, List.length_cons]
      push_cast
      ring

theorem countLangRecords_append (b : Bool) (L : String) (r1 r2 : List RepoInfo) :
    countLangRecords b L (r1 ++ r2)
      = countLangRecords b L r1 + countLangRecords b L r2 := by
  simp only [countLangRecords, List.filter_append, List.length_append]
  push_cast
  ring

/-- With a non-empty edge list and `totalSize = 0`, the edge loop raises
before any statistics write. -/
theorem processEdges_zero_stats (b : Bool) (e : LangEdge) (rest : List LangEdge)
    (st : ConsumerStats) (iac : List String) (langs : List LangInfo) :
    (processEdges b 0 (e :: rest) st iac langs).stats = st := by
  simp [processEdges]

/-- With a non-empty edge list and `totalSize = 0`, `process_repo` emits no
record: the `ZeroDivisionError` is caught by the per-item handler. -/
theorem process_repo_zero_none (org : String) (org_teams : List OrgTeam)
    (fo : String → String → String → FetchResult) (r : RepoNode)
    (st : ConsumerStats) (hne : r.languages.edges ≠ [])
    (hT : r.languages.totalSize = 0) :
    (process_repo org org_teams fo r st).2 = none := by
  match hedges : r.languages.edges with
  | [] => exact absurd hedges hne
  | e :: rest =>
      have hok := processEdges_zero_not_ok r.isArchived e rest st [] []
      simp only [process_repo, if_neg hne, hedges, hT]
      simp [hok]

/-- One node's effect on the `repo_count` of the partitioned statistics:
provided the node is successfully processed (or fails before any
statistics write — empty edge list or zero total), the matching partition
gains exactly the node's record contribution, pointwise at every language
and flag. -/
theorem rcOf_process_repo (org : String) (org_teams : List OrgTeam)
    (fo : String → String → String → FetchResult) (r : RepoNode)
    (st : ConsumerStats) (b : Bool) (L : String)
    (hnd : (r.languages.edges.map (fun e => e.name)).Nodup)
    (hs : (recordOf org org_teams fo r).isSome = true
        ∨ r.languages.edges = [] ∨ r.languages.totalSize = 0) :
    rcOf (partStats b (process_repo org org_teams fo r st).1 L)
      = rcOf (partStats b st L)
        + recContribution b L (recordOf org org_teams fo r) := by
  rw [process_repo_fst]
  by_cases he : r.languages.edges = []
  · rw [if_pos he]
    cases hrec : recordOf org org_teams fo r with
    | none => simp [recContribution]
    | some i =>
        obtain ⟨hlangs, _⟩ :=
          process_repo_nil_langs org org_teams fo r emptyConsumerStats i he hrec
        simp [recContribution, hlangs]
  · rw [if_neg he]
    by_cases hT : r.languages.totalSize = 0
    · have hnone : recordOf org org_teams fo r = none :=
        process_repo_zero_none org org_teams fo r emptyConsumerStats he hT
      match hedges : r.languages.edges with
      | [] => exact absurd hedges he
      | e :: rest =>
          rw [hT, processEdges_zero_stats, hnone]
          simp [recContribution]
    · have hsome : (recordOf org org_teams fo r).isSome = true := by
        rcases hs with h | h | h
        · exact h
        · exact absurd h he
        · exact absurd h hT
      obtain ⟨i, hi⟩ := Option.isSome_iff_exists.mp hsome
      obtain ⟨_, harch, hlangs⟩ :=
        process_repo_langs_of_some org org_teams fo r emptyConsumerStats i hi he
      have hnames : i.technologies.languages.map (fun l => l.name)
          = r.languages.edges.map (fun e => e.name) := by
        rw [hlangs, List.map_map]
        rfl
      rw [hi]
      by_cases hb : b = r.isArchived
      · subst hb
        rw [rcOf_processEdges r.isArchived r.languages.totalSize hT L
          r.languages.edges st [] [] hnd]
        simp only [recContribution, harch, hnames]
        by_cases hmem : L ∈ r.languages.edges.map (fun e => e.name)
        · simp [hmem]
        · simp [hmem]
      · rw [partStats_processEdges_other r.isArchived b hb r.languages.totalSize
          r.languages.edges st [] []]
        have : (i.is_archived == b) = false := by
          rw [harch]
          cases b <;> cases hr : r.isArchived <;> simp_all
        simp [recContribution, this]

/-- Batch-level accumulation of `repo_count`, under the no-partial-failure
hypothesis. -/
theorem rcOf_processBatch (org : String) (org_teams : List OrgTeam)
    (fo : String → String → String → FetchResult) (b : Bool) (L : String) :
    ∀ (rs : List RepoNode) (st : ConsumerStats),
      (∀ r ∈ rs, (r.languages.edges.map (fun e => e.name)).Nodup) →
      (∀ r ∈ rs, (recordOf org org_teams fo r).isSome = true
          ∨ r.languages.edges = [] ∨ r.languages.totalSize = 0) →
      rcOf (partStats b (processBatch org org_teams fo rs st).1 L)
        = rcOf (partStats b st L)
          + countLangRecords b L (processBatch org org_teams fo rs st).2 := by
  intro rs
  induction rs with
  | nil => intro st _ _; simp [processBatch, countLangRecords_nil]
  | cons r rest ih =>
      intro st hnd hs
      have hnd1 := hnd r (List.mem_cons_self r rest)
      have hs1 := hs r (List.mem_cons_self r rest)
      have hndr := fun x hx => hnd x (List.mem_cons_of_mem r hx)
      have hsr := fun x hx => hs x (List.mem_cons_of_mem r hx)
      simp only [processBatch]
      rw [process_repo_snd_eq org org_teams fo r st]
      cases hrec : recordOf org org_teams fo r with
      | none =>
          simp only
          rw [ih (process_repo org org_teams fo r st).1 hndr hsr,
            rcOf_process_repo org org_teams fo r st b L hnd1 hs1, hrec]
          simp [recContribution]
      | some i =>
          simp only
          rw [ih (process_repo org org_teams fo r st).1 hndr hsr,
            rcOf_process_repo org org_teams fo r st b L hnd1 hs1, hrec,
            countLangRecords_cons]
          ring

/-- Run-level accumulation of `repo_count` over all batches. -/
theorem rcOf_process_data (org : String) (org_teams : List OrgTeam)
    (fo : String → String → String → FetchResult) (b : Bool) (L : String) :
    ∀ (batches : List (List RepoNode)) (st : ConsumerStats),
      (∀ r ∈ batches.flatten, (r.languages.edges.map (fun e => e.name)).Nodup) →
      (∀ r ∈ batches.flatten, (recordOf org org_teams fo r).isSome = true
          ∨ r.languages.edges = [] ∨ r.languages.totalSize = 0) →
      rcOf (partStats b (process_data org org_teams fo batches st).1 L)
        = rcOf (partStats b st L)
          + countLangRecords b L (process_data org org_teams fo batches st).2.flatten := by
  intro batches
  induction batches with
  | nil => intro st _ _; simp [process_data, countLangRecords_nil]
  | cons bt rest ih =>
      intro st hnd hs
      have hndb := fun x hx => hnd x (by
        rw [List.flatten_cons]
        exact List.mem_append.mpr (Or.inl hx))
      have hsb := fun x hx => hs x (by
        rw [List.flatten_cons]
        exact List.mem_append.mpr (Or.inl hx))
      have hndr := fun x hx => hnd x (by
        rw [List.flatten_cons]
        exact List.mem_append.mpr (Or.inr hx))
      have hsr := fun x hx => hs x (by
        rw [List.flatten_cons]
        exact List.mem_append.mpr (Or.inr hx))
      simp only [process_data, List.flatten_cons]
      rw [countLangRecords_append,
        ih (processBatch org org_teams fo bt st).1 hndr hsr,
        rcOf_processBatch org org_teams fo b L bt st hndb hsb]
      ring

/-- Aggregation copies `repo_count` unchanged into the language averages. -/
theorem rcOfA_languageAverages (m : StatsMap) (L : String) :
    rcOfA (languageAverages m L) = rcOf (m L) := by
  cases h : m L <;> simp [languageAverages, rcOfA, rcOf, h]

/-- C1 (amended): for every run of the pipeline in which every node with a
non-empty language edge list and non-zero total is successfully processed
(no failure after the statistics were already written) and edge names are
pairwise distinct within each node, the `repo_count` recorded for every
language name L in each aggregated partition equals the number of emitted
repository records whose archived flag matches the partition and whose
language list contains L; and — unconditionally — a repository node never
writes the partition not matching its archived flag, so no node contributes
entries for the same language to both partitions. -/
theorem language_stats_repo_count_refined :
    ∀ (now : Int) (org : String) (org_teams : List OrgTeam)
      (fo : String → String → String → FetchResult)
      (batches : List (List RepoNode)),
      (∀ r ∈ batches.flatten, (r.languages.edges.map (fun e => e.name)).Nodup) →
      (∀ r ∈ batches.flatten, (recordOf org org_teams fo r).isSome = true
          ∨ r.languages.edges = [] ∨ r.languages.totalSize = 0) →
      (∀ L : String,
          rcOfA ((runPipeline now org org_teams fo batches).language_statistics_unarchived L)
            = countLangRecords false L (runPipeline now org org_teams fo batches).repositories
        ∧ rcOfA ((runPipeline now org org_teams fo batches).language_statistics_archived L)
            = countLangRecords true L (runPipeline now org org_teams fo batches).repositories)
    ∧ (∀ (r : RepoNode) (st : ConsumerStats) (b : Bool), b ≠ r.isArchived →
        partStats b (process_repo org org_teams fo r st).1 = partStats b st) := by
  intro now org org_teams fo batches hnd hs
  constructor
  · intro L
    constructor
    · have h := rcOf_process_data org org_teams fo false L batches emptyConsumerStats hnd hs
      rw [show rcOf (partStats false emptyConsumerStats L) = 0 from rfl, zero_add] at h
      simp only [runPipeline, computeOutput]
      rw [rcOfA_languageAverages]
      exact h
    · have h := rcOf_process_data org org_teams fo true L batches emptyConsumerStats hnd hs
      rw [show rcOf (partStats true emptyConsumerStats L) = 0 from rfl, zero_add] at h
      simp only [runPipeline, computeOutput]
      rw [rcOfA_languageAverages]
      exact h
  · intro r st b hb
    rw [process_repo_fst]
    by_cases he : r.languages.edges = []
    · rw [if_pos he]
    · rw [if_neg he]
      exact partStats_processEdges_other r.isArchived b hb r.languages.totalSize
        r.languages.edges st [] []

/-- C1 witness: a single well-formed repository run, checked at language
`Go` in the unarchived partition. -/
theorem language_stats_repo_count_refined_witness :
    (∀ r ∈ ([[goodRepo]] : List (List RepoNode)).flatten,
        (r.languages.edges.map (fun e => e.name)).Nodup)
  ∧ (∀ r ∈ ([[goodRepo]] : List (List RepoNode)).flatten,
        (recordOf ("o") [] noFetch r).isSome = true
          ∨ r.languages.edges = [] ∨ r.languages.totalSize = 0)
  ∧ rcOfA ((runPipeline 0 ("o") [] noFetch [[goodRepo]]).language_statistics_unarchived ("Go"))
      = countLangRecords false ("Go") (runPipeline 0 ("o") [] noFetch [[goodRepo]]).repositories :=
  ⟨by decide, by decide,
    ((language_stats_repo_count_refined 0 ("o") [] noFetch [[goodRepo]]
        (by decide) (by decide)).1 ("Go")).1⟩

/-- C1 counterexample: `badRepo`'s root-tree scan raises AFTER its language
statistics were written, so the run records `repo_count = 1` for `Python`
in the unarchived partition while emitting no repository record at all —
the claim's equality between `repo_count` and the number of emitted records
containing the language fails on this run. -/
theorem language_stats_partial_failure_cex :
    rcOfA ((runPipeline 0 ("o") [] noFetch [[badRepo]]).language_statistics_unarchived ("Python")) = 1
  ∧ (runPipeline 0 ("o") [] noFetch [[badRepo]]).repositories = []
  ∧ countLangRecords false ("Python")
      (runPipeline 0 ("o") [] noFetch [[badRepo]]).repositories = 0 := by
  refine ⟨by decide, by decide, by decide⟩
